import Mathlib

/-!
Verification of the resampling-statistics repository (Statistics is Easy
scripts): the normal-area lookup table, the bias-corrected bootstrap
bounds, Fisher's exact test, the marginal-preserving contingency-table
shuffle, the pooled group shuffle, and the regression significance tally.

All numeric code is embedded over `ℚ` (the scripts run exact-enough float
arithmetic on small decimals; `ℚ` models the intended real arithmetic, and
Python 2 integer division on `int` values is modelled by `Int.fdiv`).
Out-of-range list accesses (Python `IndexError`) are modelled by `Option`.
-/

namespace Fpcc2

/-! ## NormalAreaTable (RegressionConf.py, OneWayAnovaConf.py)

The source table `area_to_sd_map` has 310 entries, for standard
deviations 0.00, 0.01, ..., 3.09. -/

def area_to_sd_map : List ℚ := [
  0.0000, 0.0040, 0.0080, 0.0120, 0.0160, 0.0199, 0.0239, 0.0279, 0.0319, 0.0359,
  0.0398, 0.0438, 0.0478, 0.0517, 0.0557, 0.0596, 0.0636, 0.0675, 0.0714, 0.0753,
  0.0793, 0.0832, 0.0871, 0.0910, 0.0948, 0.0987, 0.1026, 0.1064, 0.1103, 0.1141,
  0.1179, 0.1217, 0.1255, 0.1293, 0.1331, 0.1368, 0.1406, 0.1443, 0.1480, 0.1517,
  0.1554, 0.1591, 0.1628, 0.1664, 0.1700, 0.1736, 0.1772, 0.1808, 0.1844, 0.1879,
  0.1915, 0.1950, 0.1985, 0.2019, 0.2054, 0.2088, 0.2123, 0.2157, 0.2190, 0.2224,
  0.2257, 0.2291, 0.2324, 0.2357, 0.2389, 0.2422, 0.2454, 0.2486, 0.2517, 0.2549,
  0.2580, 0.2611, 0.2642, 0.2673, 0.2704, 0.2734, 0.2764, 0.2794, 0.2823, 0.2852,
  0.2881, 0.2910, 0.2939, 0.2967, 0.2995, 0.3023, 0.3051, 0.3078, 0.3106, 0.3133,
  0.3159, 0.3186, 0.3212, 0.3238, 0.3264, 0.3289, 0.3315, 0.3340, 0.3365, 0.3389,
  0.3413, 0.3438, 0.3461, 0.3485, 0.3508, 0.3531, 0.3554, 0.3577, 0.3599, 0.3621,
  0.3643, 0.3665, 0.3686, 0.3708, 0.3729, 0.3749, 0.3770, 0.3790, 0.3810, 0.3830,
  0.3849, 0.3869, 0.3888, 0.3907, 0.3925, 0.3944, 0.3962, 0.3980, 0.3997, 0.4015,
  0.4032, 0.4049, 0.4066, 0.4082, 0.4099, 0.4115, 0.4131, 0.4147, 0.4162, 0.4177,
  0.4192, 0.4207, 0.4222, 0.4236, 0.4251, 0.4265, 0.4279, 0.4292, 0.4306, 0.4319,
  0.4332, 0.4345, 0.4357, 0.4370, 0.4382, 0.4394, 0.4406, 0.4418, 0.4429, 0.4441,
  0.4452, 0.4463, 0.4474, 0.4484, 0.4495, 0.4505, 0.4515, 0.4525, 0.4535, 0.4545,
  0.4554, 0.4564, 0.4573, 0.4582, 0.4591, 0.4599, 0.4608, 0.4616, 0.4625, 0.4633,
  0.4641, 0.4649, 0.4656, 0.4664, 0.4671, 0.4678, 0.4686, 0.4693, 0.4699, 0.4706,
  0.4713, 0.4719, 0.4726, 0.4732, 0.4738, 0.4744, 0.4750, 0.4756, 0.4761, 0.4767,
  0.4772, 0.4778, 0.4783, 0.4788, 0.4793, 0.4798, 0.4803, 0.4808, 0.4812, 0.4817,
  0.4821, 0.4826, 0.4830, 0.4834, 0.4838, 0.4842, 0.4846, 0.4850, 0.4854, 0.4857,
  0.4861, 0.4864, 0.4868, 0.4871, 0.4875, 0.4878, 0.4881, 0.4884, 0.4887, 0.4890,
  0.4893, 0.4896, 0.4898, 0.4901, 0.4904, 0.4906, 0.4909, 0.4911, 0.4913, 0.4916,
  0.4918, 0.4920, 0.4922, 0.4925, 0.4927, 0.4929, 0.4931, 0.4932, 0.4934, 0.4936,
  0.4938, 0.4940, 0.4941, 0.4943, 0.4945, 0.4946, 0.4948, 0.4949, 0.4951, 0.4952,
  0.4953, 0.4955, 0.4956, 0.4957, 0.4959, 0.4960, 0.4961, 0.4962, 0.4963, 0.4964,
  0.4965, 0.4966, 0.4967, 0.4968, 0.4969, 0.4970, 0.4971, 0.4972, 0.4973, 0.4974,
  0.4974, 0.4975, 0.4976, 0.4977, 0.4977, 0.4978, 0.4979, 0.4979, 0.4980, 0.4981,
  0.4981, 0.4982, 0.4982, 0.4983, 0.4984, 0.4984, 0.4985, 0.4985, 0.4986, 0.4986,
  0.4987, 0.4987, 0.4987, 0.4988, 0.4988, 0.4989, 0.4989, 0.4989, 0.4990, 0.4990]

/-- The scan loop of `area_to_sd` (RegressionConf.py lines 106-112).
`a` is the current index, `prev` the table entry at `a - 1` (unused while
`a = 0`).  The exact-match branch and the final fallback are Python 2
integer divisions (`sign * a / 100` on `int` operands), modelled by
`Int.fdiv`; the bracketing branch is float arithmetic
(`sign * (a - .5) / 100`). -/
def areaToSdScan (sign : ℤ) (x : ℚ) : ℕ → ℚ → List ℚ → ℚ
  | _, _, [] => (((sign * ((area_to_sd_map.length : ℤ) - 1)).fdiv 100 : ℤ) : ℚ)
  | a, prev, v :: rest =>
      if x = v then (((sign * (a : ℤ)).fdiv 100 : ℤ) : ℚ)
      else if 0 < a ∧ prev < x ∧ x < v then ((sign : ℚ) * ((a : ℚ) - 0.5)) / 100
      else areaToSdScan sign x (a + 1) v rest

/-- `area_to_sd(area)` from RegressionConf.py lines 101-113. -/
def area_to_sd (area : ℚ) : ℚ :=
  areaToSdScan (if area < 0 then -1 else 1) |area| 0 0 area_to_sd_map

/-- `sd_to_area(sd)` from RegressionConf.py lines 89-99.  `index` is
`int(sd * 100)` (truncation of a non-negative value, hence a floor).
The final branch reads `area_to_sd_map[index]` and
`area_to_sd_map[index + 1]`; when `index + 1` is out of bounds the Python
program raises `IndexError`, modelled here by `none`. -/
def sd_to_area (sd : ℚ) : Option ℚ :=
  let sign : ℚ := if sd < 0 then -1 else 1
  let x : ℚ := |sd|
  let index : ℕ := (⌊x * 100⌋).toNat
  if area_to_sd_map.length ≤ index then
    some (sign * area_to_sd_map.getD (area_to_sd_map.length - 1) 0)
  else if (index : ℚ) = x * 100 then
    (area_to_sd_map.get? index).map (fun v => sign * v)
  else
    (area_to_sd_map.get? index).bind fun u =>
      (area_to_sd_map.get? (index + 1)).map fun v => sign * (u + v) / 2

/-! ## BootstrapIntervalBuilder (RegressionConf.py lines 189-230) -/

/-- Number of bootstrap resamples (`num_resamples = 10000`). -/
def num_resamples : ℕ := 10000

/-- The running count of bootstrap statistics strictly below the observed
one (RegressionConf.py lines 200-201: `if boot_b < observed_b:
num_below_observed += 1`, over the whole loop). -/
def countBelow (results : List ℚ) (observed : ℚ) : ℕ :=
  (results.filter (fun v => v < observed)).length

/-- The bias-corrected percentile bounds (RegressionConf.py lines
216-230).  `none` when one of the two `sd_to_area` calls raises
`IndexError`.  The resulting integers are the positions used to index the
sorted bootstrap results. -/
def biasCorrBounds (num_below_observed : ℕ) (conf_interval : ℚ) : Option (ℤ × ℤ) :=
  let p : ℚ := (num_below_observed : ℚ) / (num_resamples : ℚ)
  let dist_from_center : ℚ := p - 0.5
  let z_0 : ℚ := area_to_sd dist_from_center
  let tail_sds : ℚ := area_to_sd (conf_interval / 2)
  let z_alpha_over_2 : ℚ := 0 - tail_sds
  let z_1_minus_alpha_over_2 : ℚ := tail_sds
  match sd_to_area (z_alpha_over_2 + 2 * z_0), sd_to_area (z_1_minus_alpha_over_2 + 2 * z_0) with
  | some lo, some hi =>
      some (⌈(num_resamples : ℚ) * (0.5 + lo)⌉, ⌊(num_resamples : ℚ) * (0.5 + hi)⌋)
  | _, _ => none

/-! ## Fisher's exact test (FishersExactTestSig.py) -/

namespace FishersExact

/-- `factorial(n)` from FishersExactTestSig.py lines 144-148 (an iterated
product over `range(n)`). -/
def factorial (n : ℕ) : ℕ :=
  (List.range n).foldl (fun prod i => prod * (i + 1)) 1

/-- `prob_of_matrix(a, b, c, d)` from FishersExactTestSig.py lines
150-151: the hypergeometric probability of one 2x2 table. -/
def prob_of_matrix (a b c d : ℕ) : ℚ :=
  ((factorial (a + b) * factorial (c + d) * factorial (a + c) * factorial (b + d) : ℕ) : ℚ) /
    ((factorial a * factorial b * factorial c * factorial d * factorial (a + b + c + d) : ℕ) : ℚ)

/-- `fishers_exact_test(a, b, c, d)` from FishersExactTestSig.py lines
153-177: sums `prob_of_matrix` over all valid tables derived from
`a_prime` that are at least as extreme as the observed one.  The derived
cells `b_prime`, `c_prime`, `d_prime` are integers in the source and can
be negative, hence the `ℤ` arithmetic and the sign tests. -/
def fishers_exact_test (a b c d : ℕ) : ℚ :=
  (List.range (a + b + c + d + 1)).foldl
    (fun prob_tail (a_prime : ℕ) =>
      let b_prime : ℤ := (a : ℤ) + (b : ℤ) - (a_prime : ℤ)
      if 0 ≤ b_prime then
        let c_prime : ℤ := (a : ℤ) + (c : ℤ) - (a_prime : ℤ)
        if 0 ≤ c_prime then
          let d_prime : ℤ := (c : ℤ) + (d : ℤ) - c_prime
          if 0 ≤ d_prime then
            if (a : ℤ) + (d : ℤ) ≤ (a_prime : ℤ) + d_prime then
              prob_tail + prob_of_matrix a_prime b_prime.toNat c_prime.toNat d_prime.toNat
            else prob_tail
          else prob_tail
        else prob_tail
      else prob_tail)
    0

/-! ### The marginal-preserving shuffle (FishersExactTestSig.py lines 107-142)

The random draw `random.randint(0, max_val)` is modelled by an oracle
`rand : ℕ → ℤ → ℤ` applied to a running draw index and to the bound
`max_val`; an execution of the Python code corresponds to an oracle whose
values lie in `[0, max_val]` (`ValidRand`). -/

/-- One pass of the inner `while current_column < n` loop for a row that
is not the last row: for every column but the last, draw a value bounded
by `min(available_row, available_column)`; the last column is forced to
whatever is available for the row.  Returns the row's cells and the
updated available-column values. -/
def fillRow (rand : ℕ → ℤ → ℤ) : ℕ → ℤ → List ℤ → List ℤ × List ℤ
  | _, _, [] => ([], [])
  | _, r, [c] => ([r], [c - r])
  | k, r, c :: c' :: cs =>
      let v := rand k (min r c)
      let rest := fillRow rand (k + 1) (r - v) (c' :: cs)
      (v :: rest.1, (c - v) :: rest.2)

/-- The outer `while current_row < m` loop: every row but the last is
filled by `fillRow`; every cell of the last row is forced to whatever is
available for its column. -/
def shuffleRows (rand : ℕ → ℤ → ℤ) : ℕ → List ℤ → List ℤ → List (List ℤ)
  | _, [], _ => []
  | _, [_], cols => [cols]
  | k, r :: r' :: rs, cols =>
      let step := fillRow rand k r cols
      step.1 :: shuffleRows rand (k + cols.length) (r' :: rs) step.2

/-- `shuffle(orig_row_totals, orig_column_totals)` from
FishersExactTestSig.py lines 107-142: returns the new counts as a flat
row-major list, as the source does. -/
def shuffle (rand : ℕ → ℤ → ℤ) (orig_row_totals orig_column_totals : List ℤ) : List ℤ :=
  (shuffleRows rand 0 orig_row_totals orig_column_totals).flatten

/-- An oracle is a faithful stand-in for `random.randint(0, max_val)` when
every drawn value lies in `[0, max_val]` (whenever the bound is sensible). -/
def ValidRand (rand : ℕ → ℤ → ℤ) : Prop :=
  ∀ n b, 0 ≤ b → 0 ≤ rand n b ∧ rand n b ≤ b

end FishersExact

/-- The hypergeometric probability written exactly as the specification
states it: `(a+b)!(c+d)!(a+c)!(b+d)! / (a!b!c!d!(a+b+c+d)!)`.  This is the
specification-side definition used to compare `fishers_exact_test`
against the claimed summation. -/
def specHypergeom (a b c d : ℕ) : ℚ :=
  ((Nat.factorial (a + b) * Nat.factorial (c + d) * Nat.factorial (a + c) * Nat.factorial (b + d) : ℕ) : ℚ) /
    ((Nat.factorial a * Nat.factorial b * Nat.factorial c * Nat.factorial d * Nat.factorial (a + b + c + d) : ℕ) : ℚ)

/-- The set of tables described by the claim: all quadruples of
non-negative integers with the same row and column marginals as
`(a, b, c, d)` and with `a' + d' ≥ a + d`.  Any such quadruple has every
component at most `a + b + c + d`, so ranging over
`0 .. a + b + c + d` loses nothing. -/
def specFisherTables (a b c d : ℕ) : Finset (ℕ × ℕ × ℕ × ℕ) :=
  (Finset.range (a + b + c + d + 1) ×ˢ Finset.range (a + b + c + d + 1) ×ˢ
      Finset.range (a + b + c + d + 1) ×ˢ Finset.range (a + b + c + d + 1)).filter
    fun t =>
      t.1 + t.2.1 = a + b ∧ t.2.2.1 + t.2.2.2 = c + d ∧
      t.1 + t.2.2.1 = a + c ∧ t.2.1 + t.2.2.2 = b + d ∧
      a + d ≤ t.1 + t.2.2.2

/-- The one-tailed Fisher tail probability written as the claim states
it: the sum of the hypergeometric probabilities of all tables with the
same marginals that are at least as extreme as the observed one. -/
def specFisherTail (a b c d : ℕ) : ℚ :=
  ∑ t ∈ specFisherTables a b c d, specHypergeom t.1 t.2.1 t.2.2.1 t.2.2.2

/-! ## GroupShuffler (Diff2MeanSig.py lines 65-82, OneWayAnovaSig.py lines 81-98)

`random.shuffle(pool)` is modelled by an oracle `permute` applied to the
pool; an execution of the Python code corresponds to an oracle that
permutes its input. -/

namespace GroupShuffle

/-- The pooling loop: `for i in range(num_grps): pool.extend(grps[i])`. -/
def pool (grps : List (List ℚ)) : List ℚ :=
  grps.foldl (fun p g => p ++ g) []

/-- The reassignment loop: successive contiguous slices
`pool[start_index:end_index]` whose lengths are the original group
sizes. -/
def reslice (p : List ℚ) : List (List ℚ) → List (List ℚ)
  | [] => []
  | g :: gs => p.take g.length :: reslice (p.drop g.length) gs

/-- `shuffle(grps)` from Diff2MeanSig.py lines 65-82 (identical in
OneWayAnovaSig.py): pool all values, permute the pool, re-slice it into
groups of the original sizes. -/
def shuffle (permute : List ℚ → List ℚ) (grps : List (List ℚ)) : List (List ℚ) :=
  reslice (permute (pool grps)) grps

end GroupShuffle

/-! ## Regression significance tally (RegressionSig.py lines 155-159) -/

/-- The tally condition of the regression significance loop,
RegressionSig.py line 158:
`(observed_b >= 0 and b > observed_b) or (observed_b < 0 and b < observed_b)`. -/
def regressionSlopeTallied (observed_b b : ℚ) : Bool :=
  (decide (observed_b ≥ 0) && decide (b > observed_b)) ||
    (decide (observed_b < 0) && decide (b < observed_b))

end Fpcc2
namespace Fpcc2

set_option maxRecDepth 40000

/-! ## Theorems about the NormalAreaTable lookups -/

theorem length_area_to_sd_map : area_to_sd_map.length = 310 := rfl

theorem areaToSdScan_cons (sign : ℤ) (x : ℚ) (a : ℕ) (prev v : ℚ) (rest : List ℚ) :
    areaToSdScan sign x a prev (v :: rest) =
      if x = v then (((sign * (a : ℤ)).fdiv 100 : ℤ) : ℚ)
      else if 0 < a ∧ prev < x ∧ x < v then ((sign : ℚ) * ((a : ℚ) - 0.5)) / 100
      else areaToSdScan sign x (a + 1) v rest := rfl

theorem areaToSdScan_drop_step (x : ℚ) (sign : ℤ) (k : ℕ) (prev v : ℚ)
    (hk : area_to_sd_map.drop k = v :: area_to_sd_map.drop (k + 1)) (h : v < x) :
    areaToSdScan sign x k prev (area_to_sd_map.drop k) =
      areaToSdScan sign x (k + 1) v (area_to_sd_map.drop (k + 1)) := by
  rw [hk, areaToSdScan_cons, if_neg (ne_of_gt h),
    if_neg (fun hc => absurd hc.2.2 (asymm h))]

theorem area_to_sd_eval_0040 : area_to_sd (0.0040 : ℚ) = 0 := by
  rw [area_to_sd, if_neg (by norm_num : ¬(0.0040 : ℚ) < 0),
    abs_of_nonneg (by norm_num : (0 : ℚ) ≤ 0.0040)]
  show areaToSdScan 1 (0.0040 : ℚ) 0 0 (area_to_sd_map.drop 0) = 0
  rw [areaToSdScan_drop_step (0.0040 : ℚ) 1 0 _ 0.0000 rfl (by norm_num)]
  show areaToSdScan 1 (0.0040 : ℚ) 1 0.0000 (0.0040 :: area_to_sd_map.drop 2) = 0
  rw [areaToSdScan_cons, if_pos rfl]
  have h1 : ((1 : ℤ) * ((1 : ℕ) : ℤ)).fdiv 100 = 0 := by decide
  rw [h1]
  norm_num

theorem area_to_sd_eval_1915 : area_to_sd (0.1915 : ℚ) = 0 := by
  rw [area_to_sd, if_neg (by norm_num : ¬(0.1915 : ℚ) < 0),
    abs_of_nonneg (by norm_num : (0 : ℚ) ≤ 0.1915)]
  show areaToSdScan 1 (0.1915 : ℚ) 0 0 (area_to_sd_map.drop 0) = 0
  rw [areaToSdScan_drop_step (0.1915 : ℚ) 1 0 _ 0.0000 rfl (by norm_num)]
  rw [areaToSdScan_drop_step (0.1915 : ℚ) 1 1 _ 0.0040 rfl (by norm_num)]
  rw [areaToSdScan_drop_step (0.1915 : ℚ) 1 2 _ 0.0080 rfl (by norm_num)]
  rw [areaToSdScan_drop_step (0.1915 : ℚ) 1 3 _ 0.0120 rfl (by norm_num)]
  rw [areaToSdScan_drop_step (0.1915 : ℚ) 1 4 _ 0.0160 rfl (by norm_num)]
  rw [areaToSdScan_drop_step (0.1915 : ℚ) 1 5 _ 0.0199 rfl (by norm_num)]
  rw [areaToSdScan_drop_step (0.1915 : ℚ) 1 6 _ 0.0239 rfl (by norm_num)]
  rw [areaToSdScan_drop_step (0.1915 : ℚ) 1 7 _ 0.0279 rfl (by norm_num)]
  rw [areaToSdScan_drop_step (0.1915 : ℚ) 1 8 _ 0.0319 rfl (by norm_num)]
  rw [areaToSdScan_drop_step (0.1915 : ℚ) 1 9 _ 0.0359 rfl (by norm_num)]
  rw [areaToSdScan_drop_step (0.1915 : ℚ) 1 10 _ 0.0398 rfl (by norm_num)]
  rw [areaToSdScan_drop_step (0.1915 : ℚ) 1 11 _ 0.0438 rfl (by norm_num)]
  rw [areaToSdScan_drop_step (0.1915 : ℚ) 1 12 _ 0.0478 rfl (by norm_num)]
  rw [areaToSdScan_drop_step (0.1915 : ℚ) 1 13 _ 0.0517 rfl (by norm_num)]
  rw [areaToSdScan_drop_step (0.1915 : ℚ) 1 14 _ 0.0557 rfl (by norm_num)]
  rw [areaToSdScan_drop_step (0.1915 : ℚ) 1 15 _ 0.0596 rfl (by norm_num)]
  rw [areaToSdScan_drop_step (0.1915 : ℚ) 1 16 _ 0.0636 rfl (by norm_num)]
  rw [areaToSdScan_drop_step (0.1915 : ℚ) 1 17 _ 0.0675 rfl (by norm_num)]
  rw [areaToSdScan_drop_step (0.1915 : ℚ) 1 18 _ 0.0714 rfl (by norm_num)]
  rw [areaToSdScan_drop_step (0.1915 : ℚ) 1 19 _ 0.0753 rfl (by norm_num)]
  rw [areaToSdScan_drop_step (0.1915 : ℚ) 1 20 _ 0.0793 rfl (by norm_num)]
  rw [areaToSdScan_drop_step (0.1915 : ℚ) 1 21 _ 0.0832 rfl (by norm_num)]
  rw [areaToSdScan_drop_step (0.1915 : ℚ) 1 22 _ 0.0871 rfl (by norm_num)]
  rw [areaToSdScan_drop_step (0.1915 : ℚ) 1 23 _ 0.0910 rfl (by norm_num)]
  rw [areaToSdScan_drop_step (0.1915 : ℚ) 1 24 _ 0.0948 rfl (by norm_num)]
  rw [areaToSdScan_drop_step (0.1915 : ℚ) 1 25 _ 0.0987 rfl (by norm_num)]
  rw [areaToSdScan_drop_step (0.1915 : ℚ) 1 26 _ 0.1026 rfl (by norm_num)]
  rw [areaToSdScan_drop_step (0.1915 : ℚ) 1 27 _ 0.1064 rfl (by norm_num)]
  rw [areaToSdScan_drop_step (0.1915 : ℚ) 1 28 _ 0.1103 rfl (by norm_num)]
  rw [areaToSdScan_drop_step (0.1915 : ℚ) 1 29 _ 0.1141 rfl (by norm_num)]
  rw [areaToSdScan_drop_step (0.1915 : ℚ) 1 30 _ 0.1179 rfl (by norm_num)]
  rw [areaToSdScan_drop_step (0.1915 : ℚ) 1 31 _ 0.1217 rfl (by norm_num)]
  rw [areaToSdScan_drop_step (0.1915 : ℚ) 1 32 _ 0.1255 rfl (by norm_num)]
  rw [areaToSdScan_drop_step (0.1915 : ℚ) 1 33 _ 0.1293 rfl (by norm_num)]
  rw [areaToSdScan_drop_step (0.1915 : ℚ) 1 34 _ 0.1331 rfl (by norm_num)]
  rw [areaToSdScan_drop_step (0.1915 : ℚ) 1 35 _ 0.1368 rfl (by norm_num)]
  rw [areaToSdScan_drop_step (0.1915 : ℚ) 1 36 _ 0.1406 rfl (by norm_num)]
  rw [areaToSdScan_drop_step (0.1915 : ℚ) 1 37 _ 0.1443 rfl (by norm_num)]
  rw [areaToSdScan_drop_step (0.1915 : ℚ) 1 38 _ 0.1480 rfl (by norm_num)]
  rw [areaToSdScan_drop_step (0.1915 : ℚ) 1 39 _ 0.1517 rfl (by norm_num)]
  rw [areaToSdScan_drop_step (0.1915 : ℚ) 1 40 _ 0.1554 rfl (by norm_num)]
  rw [areaToSdScan_drop_step (0.1915 : ℚ) 1 41 _ 0.1591 rfl (by norm_num)]
  rw [areaToSdScan_drop_step (0.1915 : ℚ) 1 42 _ 0.1628 rfl (by norm_num)]
  rw [areaToSdScan_drop_step (0.1915 : ℚ) 1 43 _ 0.1664 rfl (by norm_num)]
  rw [areaToSdScan_drop_step (0.1915 : ℚ) 1 44 _ 0.1700 rfl (by norm_num)]
  rw [areaToSdScan_drop_step (0.1915 : ℚ) 1 45 _ 0.1736 rfl (by norm_num)]
  rw [areaToSdScan_drop_step (0.1915 : ℚ) 1 46 _ 0.1772 rfl (by norm_num)]
  rw [areaToSdScan_drop_step (0.1915 : ℚ) 1 47 _ 0.1808 rfl (by norm_num)]
  rw [areaToSdScan_drop_step (0.1915 : ℚ) 1 48 _ 0.1844 rfl (by norm_num)]
  rw [areaToSdScan_drop_step (0.1915 : ℚ) 1 49 _ 0.1879 rfl (by norm_num)]
  show areaToSdScan 1 (0.1915 : ℚ) 50 0.1879 (0.1915 :: area_to_sd_map.drop 51) = 0
  rw [areaToSdScan_cons, if_pos rfl]
  have h50 : ((1 : ℤ) * ((50 : ℕ) : ℤ)).fdiv 100 = 0 := by decide
  rw [h50]
  norm_num

theorem sd_to_area_eq_def (sd : ℚ) :
    sd_to_area sd =
      if area_to_sd_map.length ≤ (⌊|sd| * 100⌋).toNat then
        some ((if sd < 0 then (-1 : ℚ) else 1) *
          area_to_sd_map.getD (area_to_sd_map.length - 1) 0)
      else if (((⌊|sd| * 100⌋).toNat : ℕ) : ℚ) = |sd| * 100 then
        (area_to_sd_map.get? (⌊|sd| * 100⌋).toNat).map
          fun v => (if sd < 0 then (-1 : ℚ) else 1) * v
      else
        (area_to_sd_map.get? (⌊|sd| * 100⌋).toNat).bind fun u =>
          (area_to_sd_map.get? ((⌊|sd| * 100⌋).toNat + 1)).map fun v =>
            (if sd < 0 then (-1 : ℚ) else 1) * (u + v) / 2 := rfl

theorem sd_to_area_clamp (sd : ℚ) (h : 310 ≤ (⌊|sd| * 100⌋).toNat) :
    sd_to_area sd =
      some ((if sd < 0 then (-1 : ℚ) else 1) * area_to_sd_map.getD 309 0) := by
  rw [sd_to_area_eq_def, if_pos (by rw [length_area_to_sd_map]; exact h),
    length_area_to_sd_map]

theorem sd_to_area_exact (sd : ℚ) (k : ℕ) (hk : (⌊|sd| * 100⌋).toNat = k)
    (hlt : k < 310) (hx : ((k : ℕ) : ℚ) = |sd| * 100) :
    sd_to_area sd =
      (area_to_sd_map.get? k).map fun v => (if sd < 0 then (-1 : ℚ) else 1) * v := by
  rw [sd_to_area_eq_def, hk,
    if_neg (by rw [length_area_to_sd_map]; omega), if_pos hx]

theorem sd_to_area_mid (sd : ℚ) (k : ℕ) (hk : (⌊|sd| * 100⌋).toNat = k)
    (hlt : k < 310) (hx : ((k : ℕ) : ℚ) ≠ |sd| * 100) :
    sd_to_area sd =
      (area_to_sd_map.get? k).bind fun u =>
        (area_to_sd_map.get? (k + 1)).map fun v =>
          (if sd < 0 then (-1 : ℚ) else 1) * (u + v) / 2 := by
  rw [sd_to_area_eq_def, hk,
    if_neg (by rw [length_area_to_sd_map]; omega), if_neg hx]

theorem table_get?_eq_getD (k : ℕ) (h : k < 310) :
    area_to_sd_map.get? k = some (area_to_sd_map.getD k 0) := by
  have h' : k < area_to_sd_map.length := by rw [length_area_to_sd_map]; exact h
  rw [List.get?_eq_getElem?, List.getElem?_eq_getElem h',
    List.getD_eq_getElem _ _ h']

theorem sd_to_area_eval_half : sd_to_area (1 / 2 : ℚ) = some (0.1915 : ℚ) := by
  have habs : |(1 / 2 : ℚ)| = 1 / 2 := abs_of_nonneg (by norm_num)
  rw [sd_to_area_exact (1 / 2 : ℚ) 50 (by rw [habs]; norm_num; decide)
      (by norm_num) (by rw [habs]; norm_num)]
  have hget : area_to_sd_map.get? 50 = some (0.1915 : ℚ) := rfl
  rw [hget, Option.map_some']
  norm_num

/-- Claim C3 (code bug): `area_to_sd` is supposed to return the standard
deviation `a / 100` (with sign) on an exact table match at index `a`, and
`3.09` when the area exceeds every entry.  The source runs under
Python 2, where `sign * a / 100` on two `int` operands is floor
division.  At the exact match `area = 0.0040` (table entry 1) the code
returns `0`, not `0.01`.  This theorem evaluates the embedded code at
that failing input and records that `0.0040` is indeed table entry 1. -/
theorem area_to_sd_py2_division_bug :
    area_to_sd (0.0040 : ℚ) = 0 ∧ area_to_sd_map.get? 1 = some (0.0040 : ℚ) :=
  ⟨area_to_sd_eval_0040, rfl⟩

/-- Claim C5 (code bug): the specified round trip
`areaToSd (sdToArea x)` within `0.01` of `x` fails at `x = 1/2`:
`sd_to_area (1/2)` is the exact table entry `0.1915` at index 50, and
`area_to_sd 0.1915` hits the exact-match branch, whose Python 2 integer
division `(1 * 50) / 100` yields `0`; the round-trip error is `0.5`. -/
theorem round_trip_fails_at_half :
    sd_to_area (1 / 2 : ℚ) = some (0.1915 : ℚ) ∧
      1 / 100 < |area_to_sd (0.1915 : ℚ) - 1 / 2| := by
  refine ⟨sd_to_area_eval_half, ?_⟩
  rw [area_to_sd_eval_1915, zero_sub, abs_neg,
    abs_of_nonneg (by norm_num : (0 : ℚ) ≤ 1 / 2)]
  norm_num

/-- Claim C4, counterexample: `sd_to_area` does not return the linear
interpolation between the bracketing table entries evaluated at `|sd|`.
At `sd = 0.011` (index 1, fractional part 0.1) the code returns the plain
midpoint `(0.0040 + 0.0080) / 2 = 0.0060`, while the interpolation at
`|sd|` is `0.0040 + 0.1 × (0.0080 − 0.0040) = 0.0044`. -/
theorem sd_to_area_midpoint_counterexample :
    sd_to_area (0.011 : ℚ) = some (0.0060 : ℚ) ∧
      (0.0060 : ℚ) ≠
        area_to_sd_map.getD 1 0 +
          ((0.011 : ℚ) * 100 - 1) * (area_to_sd_map.getD 2 0 - area_to_sd_map.getD 1 0) := by
  constructor
  · have habs : |(0.011 : ℚ)| = 0.011 := abs_of_nonneg (by norm_num)
    rw [sd_to_area_mid (0.011 : ℚ) 1 (by rw [habs]; norm_num)
        (by norm_num) (by rw [habs]; norm_num)]
    have h1 : area_to_sd_map.get? 1 = some (0.0040 : ℚ) := rfl
    have h2 : area_to_sd_map.get? 2 = some (0.0080 : ℚ) := rfl
    rw [h1, h2]
    show some ((if (0.011 : ℚ) < 0 then (-1 : ℚ) else 1) * (0.0040 + 0.0080) / 2) =
      some (0.0060 : ℚ)
    rw [if_neg (by norm_num : ¬(0.011 : ℚ) < 0)]
    norm_num
  · have h1 : area_to_sd_map.getD 1 0 = (0.0040 : ℚ) := rfl
    have h2 : area_to_sd_map.getD 2 0 = (0.0080 : ℚ) := rfl
    rw [h1, h2]
    norm_num

/-- Claim C4, amended: `sd_to_area` takes `|sd|`, truncates to the index
`⌊100·|sd|⌋`; if the index reaches past the 310-entry table it returns
the last entry; on an exact 0.01 step it returns the entry at the index;
otherwise it returns the plain (unweighted) midpoint of the entries at
`index` and `index + 1` — not the linear interpolation evaluated at
`|sd|` — and this midpoint branch is only defined while `index + 1` is in
range.  The result always carries the sign of `sd`. -/
theorem sd_to_area_characterization :
    (∀ sd : ℚ, 310 ≤ (⌊|sd| * 100⌋).toNat →
      sd_to_area sd =
        some ((if sd < 0 then (-1 : ℚ) else 1) * area_to_sd_map.getD 309 0)) ∧
    (∀ (sd : ℚ) (k : ℕ), (⌊|sd| * 100⌋).toNat = k → k < 310 →
      ((k : ℕ) : ℚ) = |sd| * 100 →
      sd_to_area sd =
        some ((if sd < 0 then (-1 : ℚ) else 1) * area_to_sd_map.getD k 0)) ∧
    (∀ (sd : ℚ) (k : ℕ), (⌊|sd| * 100⌋).toNat = k → k < 309 →
      ((k : ℕ) : ℚ) ≠ |sd| * 100 →
      sd_to_area sd =
        some ((if sd < 0 then (-1 : ℚ) else 1) *
          (area_to_sd_map.getD k 0 + area_to_sd_map.getD (k + 1) 0) / 2)) := by
  refine ⟨fun sd h => sd_to_area_clamp sd h, fun sd k hk hlt hx => ?_, fun sd k hk hlt hx => ?_⟩
  · rw [sd_to_area_exact sd k hk hlt hx, table_get?_eq_getD k hlt, Option.map_some']
  · rw [sd_to_area_mid sd k hk (by omega) hx, table_get?_eq_getD k (by omega),
      table_get?_eq_getD (k + 1) (by omega)]
    show some ((if sd < 0 then (-1 : ℚ) else 1) *
      (area_to_sd_map.getD k 0 + area_to_sd_map.getD (k + 1) 0) / 2) = _
    rfl

/-- Witness for the amended Claim C4: at `sd = 0.015` the index is 1, the
value is not on an exact step, and the theorem yields the midpoint of
entries 1 and 2. -/
theorem sd_to_area_characterization_witness :
    sd_to_area (0.015 : ℚ) =
      some ((if (0.015 : ℚ) < 0 then (-1 : ℚ) else 1) *
        (area_to_sd_map.getD 1 0 + area_to_sd_map.getD 2 0) / 2) := by
  have habs : |(0.015 : ℚ)| = 0.015 := abs_of_nonneg (by norm_num)
  exact sd_to_area_characterization.2.2 (0.015 : ℚ) 1
    (by rw [habs]; norm_num) (by norm_num) (by rw [habs]; norm_num)

/-- Claim C10, counterexample: the claim asserts that for
`2.99 < |sd| < 3.00` the lookup reads past the end of a 300-entry table
and fails.  The table actually has 310 entries (sd 0.00 .. 3.09), so at
`sd = 2.995` the computed index is 299, both entries 299 and 300 exist,
and the lookup succeeds with the midpoint `(0.4986 + 0.4987) / 2`. -/
theorem sd_to_area_defined_near_three :
    (2.99 : ℚ) < |(2.995 : ℚ)| ∧ |(2.995 : ℚ)| < 3 ∧
      sd_to_area (2.995 : ℚ) = some (9973 / 20000 : ℚ) := by
  have habs : |(2.995 : ℚ)| = 2.995 := abs_of_nonneg (by norm_num)
  refine ⟨by rw [habs]; norm_num, by rw [habs]; norm_num, ?_⟩
  rw [sd_to_area_mid (2.995 : ℚ) 299 (by rw [habs]; norm_num; decide)
      (by norm_num) (by rw [habs]; norm_num)]
  have h1 : area_to_sd_map.get? 299 = some (0.4986 : ℚ) := rfl
  have h2 : area_to_sd_map.get? 300 = some (0.4987 : ℚ) := rfl
  rw [h1, h2]
  show some ((if (2.995 : ℚ) < 0 then (-1 : ℚ) else 1) * (0.4986 + 0.4987) / 2) =
    some (9973 / 20000 : ℚ)
  rw [if_neg (by norm_num : ¬(2.995 : ℚ) < 0)]
  norm_num

/-- Claim C10, amended: `sd_to_area` is not total.  The table has 310
entries (indices 0 .. 309, sd 0.00 .. 3.09).  For every `sd` with
`3.09 < |sd| < 3.10` the computed index is 309, which passes the bounds
check (`309 < 310`) and misses the exact-step branch, so the code reads
table entry 310 and fails with an out-of-bounds access (modelled as
`none`); clamping to the last entry happens only when `|sd| ≥ 3.10`. -/
theorem sd_to_area_oob_zone :
    (∀ sd : ℚ, 309 / 100 < |sd| → |sd| < 310 / 100 →
      (⌊|sd| * 100⌋).toNat = 309 ∧ sd_to_area sd = none) ∧
    (∀ sd : ℚ, 310 / 100 ≤ |sd| →
      sd_to_area sd =
        some ((if sd < 0 then (-1 : ℚ) else 1) * area_to_sd_map.getD 309 0)) := by
  constructor
  · intro sd h1 h2
    have hfl : ⌊|sd| * 100⌋ = 309 := by
      rw [Int.floor_eq_iff]
      constructor
      · push_cast
        linarith
      · push_cast
        linarith
    have hidx : (⌊|sd| * 100⌋).toNat = 309 := by rw [hfl]; decide
    refine ⟨hidx, ?_⟩
    rw [sd_to_area_mid sd 309 hidx (by norm_num)
        (by push_cast; intro he; linarith)]
    have h310 : area_to_sd_map.get? (309 + 1) = none := rfl
    have h309 : area_to_sd_map.get? 309 = some (0.4990 : ℚ) := rfl
    rw [h309, h310]
    rfl
  · intro sd h
    have hz : (310 : ℤ) ≤ ⌊|sd| * 100⌋ := by
      rw [Int.le_floor]
      push_cast
      linarith
    exact sd_to_area_clamp sd (by omega)

/-- Witness for the amended Claim C10: at `sd = 3.095` (strictly between
3.09 and 3.10) the lookup fails, and at `sd = 3.2` it clamps. -/
theorem sd_to_area_oob_zone_witness :
    sd_to_area (3.095 : ℚ) = none ∧
      sd_to_area (3.2 : ℚ) =
        some ((if (3.2 : ℚ) < 0 then (-1 : ℚ) else 1) * area_to_sd_map.getD 309 0) := by
  have habs : |(3.095 : ℚ)| = 3.095 := abs_of_nonneg (by norm_num)
  have habs2 : |(3.2 : ℚ)| = 3.2 := abs_of_nonneg (by norm_num)
  exact ⟨(sd_to_area_oob_zone.1 (3.095 : ℚ) (by rw [habs]; norm_num)
      (by rw [habs]; norm_num)).2,
    sd_to_area_oob_zone.2 (3.2 : ℚ) (by rw [habs2]; norm_num)⟩

end Fpcc2

namespace Fpcc2

set_option maxRecDepth 40000

/-! ## Theorems about the bias-corrected bootstrap bounds -/

/-- Claim C6: with `p` the fraction of bootstrap statistics strictly
below the observed one, `z0 = areaToSd (p − 0.5)` and
`zTail = areaToSd (confidence / 2)`, the bias-corrected bounds are
`⌈10000 · (0.5 + sdToArea (−zTail + 2·z0))⌉` and
`⌊10000 · (0.5 + sdToArea (zTail + 2·z0))⌋`; the code indexes the sorted
bootstrap results at exactly these positions.  The equation is stated
through the `Option` returned by `sd_to_area`: when either lookup raises,
the bounds computation fails the same way. -/
theorem biasCorrBounds_eq_def (nb : ℕ) (conf : ℚ) :
    biasCorrBounds nb conf =
      match sd_to_area (0 - area_to_sd (conf / 2) +
          2 * area_to_sd ((nb : ℚ) / (num_resamples : ℚ) - 0.5)),
        sd_to_area (area_to_sd (conf / 2) +
          2 * area_to_sd ((nb : ℚ) / (num_resamples : ℚ) - 0.5)) with
      | some lo, some hi =>
          some (⌈(num_resamples : ℚ) * (0.5 + lo)⌉, ⌊(num_resamples : ℚ) * (0.5 + hi)⌋)
      | _, _ => none := rfl

theorem bias_corr_bounds_formula (results : List ℚ) (observed conf : ℚ) :
    biasCorrBounds (countBelow results observed) conf =
      (sd_to_area (-(area_to_sd (conf / 2)) +
          2 * area_to_sd ((countBelow results observed : ℚ) / 10000 - 0.5))).bind
        fun lo =>
          (sd_to_area (area_to_sd (conf / 2) +
              2 * area_to_sd ((countBelow results observed : ℚ) / 10000 - 0.5))).map
            fun hi => (⌈(10000 : ℚ) * (0.5 + lo)⌉, ⌊(10000 : ℚ) * (0.5 + hi)⌋) := by
  rw [biasCorrBounds_eq_def]
  have h0 : (0 : ℚ) - area_to_sd (conf / 2) = -(area_to_sd (conf / 2)) := by ring
  have hn : ((num_resamples : ℕ) : ℚ) = (10000 : ℚ) := by norm_num [num_resamples]
  rw [h0, hn]
  cases sd_to_area (-(area_to_sd (conf / 2)) +
      2 * area_to_sd ((countBelow results observed : ℚ) / 10000 - 0.5)) <;>
    cases sd_to_area (area_to_sd (conf / 2) +
        2 * area_to_sd ((countBelow results observed : ℚ) / 10000 - 0.5)) <;>
      rfl

/-! ## Theorems about the regression significance tally -/

/-- Claim C9 (code bug): the regression significance test is documented
(in the script's own header, pseudocode and printed output) to count
resampled slopes `greater than or equal to` (or, for negative observed
slopes, `less than or equal to`) the observed slope, but the code at
RegressionSig.py line 158 uses strict comparisons in both directions, so
a resampled slope exactly equal to the observed one is never tallied. -/
theorem regression_tally_excludes_ties (b : ℚ) :
    regressionSlopeTallied b b = false := by
  simp [regressionSlopeTallied]

end Fpcc2
namespace Fpcc2

set_option maxRecDepth 40000

namespace FishersExact

theorem factorial_foldl (n : ℕ) : ∀ init : ℕ,
    (List.range n).foldl (fun prod i => prod * (i + 1)) init = init * Nat.factorial n := by
  induction n with
  | zero => intro init; simp [Nat.factorial]
  | succ n ih =>
      intro init
      rw [List.range_succ, List.foldl_append, ih, List.foldl_cons, List.foldl_nil,
        Nat.factorial_succ]
      ring

theorem factorial_eq (n : ℕ) : factorial n = Nat.factorial n := by
  rw [factorial, factorial_foldl, one_mul]

theorem prob_of_matrix_eq_specHypergeom (a b c d : ℕ) :
    prob_of_matrix a b c d = specHypergeom a b c d := by
  rw [prob_of_matrix, specHypergeom, factorial_eq, factorial_eq, factorial_eq,
    factorial_eq, factorial_eq, factorial_eq, factorial_eq, factorial_eq, factorial_eq]

theorem foldl_add_range (f : ℕ → ℚ) (n : ℕ) : ∀ init : ℚ,
    (List.range n).foldl (fun s i => s + f i) init = init + ∑ i ∈ Finset.range n, f i := by
  induction n with
  | zero => intro init; simp
  | succ n ih =>
      intro init
      rw [List.range_succ, List.foldl_append, ih, List.foldl_cons, List.foldl_nil,
        Finset.sum_range_succ]
      ring

theorem fishers_eq_sum (a b c d : ℕ) :
    fishers_exact_test a b c d =
      ∑ i ∈ Finset.range (a + b + c + d + 1),
        if i ≤ a + b ∧ i ≤ a + c ∧ a ≤ d + i ∧ a ≤ i then
          prob_of_matrix i (a + b - i) (a + c - i) (d + i - a)
        else 0 := by
  calc fishers_exact_test a b c d
      = (List.range (a + b + c + d + 1)).foldl
          (fun s i => s +
            if i ≤ a + b ∧ i ≤ a + c ∧ a ≤ d + i ∧ a ≤ i then
              prob_of_matrix i (a + b - i) (a + c - i) (d + i - a)
            else 0) 0 := by
        rw [fishers_exact_test]
        apply List.foldl_ext
        intro s i hi
        dsimp only
        split_ifs with h1 h2 h3 h4 h5
        · have e1 : ((a : ℤ) + (b : ℤ) - (i : ℤ)).toNat = a + b - i := by omega
          have e2 : ((a : ℤ) + (c : ℤ) - (i : ℤ)).toNat = a + c - i := by omega
          have e3 : ((c : ℤ) + (d : ℤ) - ((a : ℤ) + (c : ℤ) - (i : ℤ))).toNat = d + i - a := by
            omega
          rw [e1, e2, e3]
        · exact absurd ⟨by omega, by omega, by omega, by omega⟩ h5
        all_goals first
          | rw [add_zero]
          | (exfalso; omega)
    _ = 0 + ∑ i ∈ Finset.range (a + b + c + d + 1),
          (if i ≤ a + b ∧ i ≤ a + c ∧ a ≤ d + i ∧ a ≤ i then
            prob_of_matrix i (a + b - i) (a + c - i) (d + i - a)
          else 0) := foldl_add_range _ _ 0
    _ = _ := zero_add _

end FishersExact

theorem specTail_eq_sum (a b c d : ℕ) :
    specFisherTail a b c d =
      ∑ i ∈ Finset.range (a + b + c + d + 1),
        if i ≤ a + b ∧ i ≤ a + c ∧ a ≤ d + i ∧ a ≤ i then
          specHypergeom i (a + b - i) (a + c - i) (d + i - a)
        else 0 := by
  rw [specFisherTail, ← Finset.sum_filter]
  apply Finset.sum_nbij' (fun t => t.1)
    (fun i => (i, a + b - i, a + c - i, d + i - a))
  · rintro ⟨x, y, z, w⟩ ht
    simp only [specFisherTables, Finset.mem_filter, Finset.mem_product,
      Finset.mem_range] at ht
    simp only [Finset.mem_filter, Finset.mem_range]
    omega
  · intro i hi
    simp only [Finset.mem_filter, Finset.mem_range] at hi
    simp only [specFisherTables, Finset.mem_filter, Finset.mem_product,
      Finset.mem_range]
    omega
  · rintro ⟨x, y, z, w⟩ ht
    simp only [specFisherTables, Finset.mem_filter, Finset.mem_product,
      Finset.mem_range] at ht
    have e2 : a + b - x = y := by omega
    have e3 : a + c - x = z := by omega
    have e4 : d + x - a = w := by omega
    rw [e2, e3, e4]
  · intro i hi
    rfl
  · rintro ⟨x, y, z, w⟩ ht
    simp only [specFisherTables, Finset.mem_filter, Finset.mem_product,
      Finset.mem_range] at ht
    show specHypergeom x y z w = specHypergeom x (a + b - x) (a + c - x) (d + x - a)
    have e2 : a + b - x = y := by omega
    have e3 : a + c - x = z := by omega
    have e4 : d + x - a = w := by omega
    rw [e2, e3, e4]

/-- Claim C7: for all non-negative integers `a b c d`, the code's
`fishers_exact_test` equals the sum, over every table with the same row
and column marginals satisfying `a' + d' ≥ a + d`, of the hypergeometric
probability `(a'+b')!(c'+d')!(a'+c')!(b'+d')! /
(a'! b'! c'! d'! (a'+b'+c'+d')!)`; and at the worked example
`a = 3, b = 1, c = 2, d = 4` the value is exactly `11/42 = 55/210 ≈
0.2619`. -/
theorem fishers_exact_test_matches_spec :
    (∀ a b c d : ℕ,
      FishersExact.fishers_exact_test a b c d = specFisherTail a b c d) ∧
      FishersExact.fishers_exact_test 3 1 2 4 = 11 / 42 := by
  have key : ∀ a b c d : ℕ,
      FishersExact.fishers_exact_test a b c d = specFisherTail a b c d := by
    intro a b c d
    rw [FishersExact.fishers_eq_sum, specTail_eq_sum]
    refine Finset.sum_congr rfl fun i hi => ?_
    split_ifs with h
    · rw [FishersExact.prob_of_matrix_eq_specHypergeom]
    · rfl
  refine ⟨key, ?_⟩
  rw [FishersExact.fishers_eq_sum]
  norm_num [Finset.sum_range_succ, FishersExact.prob_of_matrix_eq_specHypergeom,
    specHypergeom, Nat.factorial]

end Fpcc2
namespace Fpcc2

set_option maxRecDepth 40000

namespace FishersExact

theorem fillRow_length (rand : ℕ → ℤ → ℤ) :
    ∀ (cols : List ℤ) (k : ℕ) (r : ℤ),
      (fillRow rand k r cols).1.length = cols.length ∧
      (fillRow rand k r cols).2.length = cols.length := by
  intro cols
  induction cols with
  | nil => intro k r; simp [fillRow]
  | cons c cs ih =>
      intro k r
      cases cs with
      | nil => simp [fillRow]
      | cons c' cs' =>
          simp only [fillRow, List.length_cons]
          constructor
          · rw [(ih (k + 1) (r - rand k (min r c))).1]
            simp
          · rw [(ih (k + 1) (r - rand k (min r c))).2]
            simp

theorem fillRow_fst_sum (rand : ℕ → ℤ → ℤ) :
    ∀ (cols : List ℤ), cols ≠ [] → ∀ (k : ℕ) (r : ℤ),
      (fillRow rand k r cols).1.sum = r := by
  intro cols
  induction cols with
  | nil => intro h; exact absurd rfl h
  | cons c cs ih =>
      intro _ k r
      cases cs with
      | nil => simp [fillRow]
      | cons c' cs' =>
          simp only [fillRow, List.sum_cons]
          rw [ih (by simp) (k + 1) (r - rand k (min r c))]
          ring

theorem fillRow_snd_sum (rand : ℕ → ℤ → ℤ) :
    ∀ (cols : List ℤ), cols ≠ [] → ∀ (k : ℕ) (r : ℤ),
      (fillRow rand k r cols).2.sum = cols.sum - r := by
  intro cols
  induction cols with
  | nil => intro h; exact absurd rfl h
  | cons c cs ih =>
      intro _ k r
      cases cs with
      | nil => simp [fillRow]
      | cons c' cs' =>
          simp only [fillRow, List.sum_cons]
          rw [ih (by simp) (k + 1) (r - rand k (min r c)), List.sum_cons]
          ring

theorem fillRow_snd_getD (rand : ℕ → ℤ → ℤ) :
    ∀ (cols : List ℤ) (k : ℕ) (r : ℤ) (j : ℕ), j < cols.length →
      (fillRow rand k r cols).2.getD j 0 =
        cols.getD j 0 - (fillRow rand k r cols).1.getD j 0 := by
  intro cols
  induction cols with
  | nil => intro k r j hj; simp at hj
  | cons c cs ih =>
      intro k r j hj
      cases cs with
      | nil =>
          cases j with
          | zero => simp [fillRow]
          | succ j' => simp at hj
      | cons c' cs' =>
          cases j with
          | zero => simp [fillRow]
          | succ j' =>
              simp only [fillRow, List.getD_cons_succ]
              exact ih (k + 1) (r - rand k (min r c)) j' (by simpa using hj)

theorem shuffleRows_row_sum (rand : ℕ → ℤ → ℤ) :
    ∀ (rows cols : List ℤ) (k : ℕ), cols ≠ [] → rows.sum = cols.sum →
      ∀ i, i < rows.length →
        ((shuffleRows rand k rows cols).getD i []).sum = rows.getD i 0 := by
  intro rows
  induction rows with
  | nil => intro cols k hc hsum i hi; simp at hi
  | cons r rs ih =>
      intro cols k hc hsum i hi
      cases rs with
      | nil =>
          cases i with
          | zero =>
              simp only [shuffleRows, List.getD_cons_zero]
              simp only [List.sum_cons, List.sum_nil, add_zero] at hsum
              omega
          | succ i' => simp at hi
      | cons r' rs' =>
          cases i with
          | zero =>
              simp only [shuffleRows, List.getD_cons_zero]
              exact fillRow_fst_sum rand cols hc k r
          | succ i' =>
              simp only [shuffleRows, List.getD_cons_succ]
              have hlen := (fillRow_length rand cols k r).2
              have hne : (fillRow rand k r cols).2 ≠ [] := by
                intro h
                rw [h] at hlen
                simp at hlen
                exact hc (List.length_eq_zero.mp hlen.symm)
              have hsum2 : (r' :: rs').sum = (fillRow rand k r cols).2.sum := by
                rw [fillRow_snd_sum rand cols hc k r]
                simp only [List.sum_cons] at hsum ⊢
                omega
              exact ih (fillRow rand k r cols).2 (k + cols.length) hne hsum2 i'
                (by simpa using hi)

theorem shuffleRows_col_sum (rand : ℕ → ℤ → ℤ) :
    ∀ (rows cols : List ℤ) (k : ℕ), rows ≠ [] →
      ∀ j, j < cols.length →
        (((shuffleRows rand k rows cols).map (fun row => row.getD j 0)).sum =
          cols.getD j 0) := by
  intro rows
  induction rows with
  | nil => intro cols k hrow j hj; exact absurd rfl hrow
  | cons r rs ih =>
      intro cols k _ j hj
      cases rs with
      | nil => simp [shuffleRows]
      | cons r' rs' =>
          simp only [shuffleRows, List.map_cons, List.sum_cons]
          have hlen := (fillRow_length rand cols k r).2
          rw [ih (fillRow rand k r cols).2 (k + cols.length) (by simp) j (by omega),
            fillRow_snd_getD rand cols k r j hj]
          ring

theorem shuffleRows_flatten_sum (rand : ℕ → ℤ → ℤ) :
    ∀ (rows cols : List ℤ) (k : ℕ), rows ≠ [] → cols ≠ [] → rows.sum = cols.sum →
      ((shuffleRows rand k rows cols).flatten).sum = cols.sum := by
  intro rows
  induction rows with
  | nil => intro cols k h hc hsum; exact absurd rfl h
  | cons r rs ih =>
      intro cols k _ hc hsum
      cases rs with
      | nil => simp [shuffleRows]
      | cons r' rs' =>
          simp only [shuffleRows, List.flatten_cons, List.sum_append]
          have hlen := (fillRow_length rand cols k r).2
          have hne : (fillRow rand k r cols).2 ≠ [] := by
            intro h
            rw [h] at hlen
            simp at hlen
            exact hc (List.length_eq_zero.mp hlen.symm)
          have hsum2 : (r' :: rs').sum = (fillRow rand k r cols).2.sum := by
            rw [fillRow_snd_sum rand cols hc k r]
            simp only [List.sum_cons] at hsum ⊢
            omega
          rw [ih (fillRow rand k r cols).2 (k + cols.length) (by simp) hne hsum2,
            fillRow_snd_sum rand cols hc k r,
            fillRow_fst_sum rand cols hc k r]
          ring

end FishersExact

/-- Claim C1: for every integer row-total vector and column-total vector
with equal sums (both non-empty, so that an m×n table with m, n ≥ 1
exists), and for every sequence of random draws (any draw oracle at
all), the table built by the marginal-preserving shuffle has row `i`
summing to the `i`-th row total, column `j` summing to the `j`-th
column total, and the flattened result summing to the common grand
total. -/
theorem marginal_shuffle_preserves_marginals (rand : ℕ → ℤ → ℤ)
    (rows cols : List ℤ) (hr : rows ≠ []) (hc : cols ≠ [])
    (hsum : rows.sum = cols.sum) :
    (∀ i, i < rows.length →
      ((FishersExact.shuffleRows rand 0 rows cols).getD i []).sum = rows.getD i 0) ∧
    (∀ j, j < cols.length →
      ((FishersExact.shuffleRows rand 0 rows cols).map (fun row => row.getD j 0)).sum =
        cols.getD j 0) ∧
    (FishersExact.shuffle rand rows cols).sum = cols.sum :=
  ⟨fun i hi => FishersExact.shuffleRows_row_sum rand rows cols 0 hc hsum i hi,
    fun j hj => FishersExact.shuffleRows_col_sum rand rows cols 0 hr j hj,
    by
      rw [FishersExact.shuffle]
      exact FishersExact.shuffleRows_flatten_sum rand rows cols 0 hr hc hsum⟩

/-- Witness for Claim C1: concrete totals `[2, 2]` and `[3, 1]` with the
all-zeros draw oracle; row 0 of the generated table sums to the first
row total. -/
theorem marginal_shuffle_preserves_marginals_witness :
    ((FishersExact.shuffleRows (fun _ _ => 0) 0 [2, 2] [3, 1]).getD 0 []).sum =
      ([2, 2] : List ℤ).getD 0 0 :=
  (marginal_shuffle_preserves_marginals (fun _ _ => 0) [2, 2] [3, 1]
    (by simp) (by simp) (by norm_num)).1 0 (by norm_num)

end Fpcc2
namespace Fpcc2

set_option maxRecDepth 40000

namespace FishersExact

theorem fillRow_nonneg (rand : ℕ → ℤ → ℤ) (hrand : ValidRand rand) :
    ∀ (cols : List ℤ) (k : ℕ) (r : ℤ), 0 ≤ r →
      (∀ c ∈ cols.dropLast, 0 ≤ c) →
      (∀ v ∈ (fillRow rand k r cols).1, 0 ≤ v) ∧
      (∀ c ∈ (fillRow rand k r cols).2.dropLast, 0 ≤ c) := by
  intro cols
  induction cols with
  | nil => intro k r hr hc; simp [fillRow]
  | cons c cs ih =>
      intro k r hr hc
      cases cs with
      | nil =>
          constructor
          · intro v hv
            simp only [fillRow, List.mem_singleton] at hv
            omega
          · intro x hx
            simp [fillRow] at hx
      | cons c' cs' =>
          have hc0 : 0 ≤ c := hc c (by rw [List.dropLast_cons₂]; exact List.mem_cons_self c _)
          have hctail : ∀ x ∈ (c' :: cs').dropLast, 0 ≤ x := by
            intro x hx
            exact hc x (by rw [List.dropLast_cons₂]; exact List.mem_cons_of_mem c hx)
          have hb : (0 : ℤ) ≤ min r c := le_min hr hc0
          obtain ⟨hv0, hvb⟩ := hrand k (min r c) hb
          have hvr : rand k (min r c) ≤ r := le_trans hvb (min_le_left _ _)
          have hvc : rand k (min r c) ≤ c := le_trans hvb (min_le_right _ _)
          have ihh := ih (k + 1) (r - rand k (min r c)) (by omega) hctail
          constructor
          · intro v hv
            simp only [fillRow, List.mem_cons] at hv
            rcases hv with rfl | hv
            · exact hv0
            · exact ihh.1 v hv
          · intro x hx
            simp only [fillRow] at hx
            have hlen := (fillRow_length rand (c' :: cs') (k + 1) (r - rand k (min r c))).2
            obtain ⟨y, ys, hys⟩ :
                ∃ y ys, (fillRow rand (k + 1) (r - rand k (min r c)) (c' :: cs')).2 = y :: ys := by
              cases hsnd : (fillRow rand (k + 1) (r - rand k (min r c)) (c' :: cs')).2 with
              | nil => rw [hsnd] at hlen; simp at hlen
              | cons y ys => exact ⟨y, ys, rfl⟩
            rw [hys, List.dropLast_cons₂, List.mem_cons] at hx
            rcases hx with rfl | hx
            · omega
            · exact ihh.2 x (by rw [hys]; exact hx)

theorem shuffleRows_cell_nonneg (rand : ℕ → ℤ → ℤ) (hrand : ValidRand rand) :
    ∀ (rows cols : List ℤ) (k : ℕ),
      (∀ r ∈ rows, 0 ≤ r) → (∀ c ∈ cols.dropLast, 0 ≤ c) →
      ∀ i j, i < rows.length → j < cols.length →
        ¬(i = rows.length - 1 ∧ j = cols.length - 1) →
        0 ≤ ((shuffleRows rand k rows cols).getD i []).getD j 0 := by
  intro rows
  induction rows with
  | nil => intro cols k hr hc i j hi; simp at hi
  | cons r rs ih =>
      intro cols k hr hc i j hi hj hcorner
      cases rs with
      | nil =>
          cases i with
          | succ i' => simp at hi
          | zero =>
              simp only [shuffleRows, List.getD_cons_zero]
              have hj' : j ≠ cols.length - 1 := fun h => hcorner ⟨rfl, h⟩
              have hjd : j < cols.dropLast.length := by
                rw [List.length_dropLast]
                omega
              rw [List.getD_eq_getElem cols 0 hj, ← List.getElem_dropLast cols j hjd]
              exact hc _ (List.getElem_mem hjd)
      | cons r' rs' =>
          cases i with
          | zero =>
              simp only [shuffleRows, List.getD_cons_zero]
              have hlen := (fillRow_length rand cols k r).1
              have hjl : j < (fillRow rand k r cols).1.length := by omega
              rw [List.getD_eq_getElem _ 0 hjl]
              exact (fillRow_nonneg rand hrand cols k r
                (hr r (List.mem_cons_self _ _)) hc).1 _ (List.getElem_mem hjl)
          | succ i' =>
              simp only [shuffleRows, List.getD_cons_succ]
              have hlen := (fillRow_length rand cols k r).2
              apply ih (fillRow rand k r cols).2 (k + cols.length)
                (fun x hx => hr x (List.mem_cons_of_mem r hx))
                (fillRow_nonneg rand hrand cols k r
                  (hr r (List.mem_cons_self _ _)) hc).2
                i' j (by simpa using hi) (by omega)
              rintro ⟨h1, h2⟩
              rw [hlen] at h2
              apply hcorner
              constructor
              · simp only [List.length_cons] at h1 ⊢
                omega
              · exact h2

end FishersExact

/-- Claim C2, amended: with non-negative row and column totals, equal
sums, and every draw within its `randint` bound, every cell of the
generated table is non-negative except possibly the bottom-right cell
(last row, last column): the forced row-remainder cells and the free
cells stay non-negative, but the bottom-right cell equals whatever
remains of the last column total, which can go negative; the code
performs no negativity check. -/
theorem marginal_shuffle_nonneg_except_corner (rand : ℕ → ℤ → ℤ)
    (rows cols : List ℤ) (hrand : FishersExact.ValidRand rand)
    (hrow : ∀ r ∈ rows, 0 ≤ r) (hcol : ∀ c ∈ cols, 0 ≤ c)
    (_hsum : rows.sum = cols.sum) (i j : ℕ) (hi : i < rows.length)
    (hj : j < cols.length)
    (hcorner : ¬(i = rows.length - 1 ∧ j = cols.length - 1)) :
    0 ≤ ((FishersExact.shuffleRows rand 0 rows cols).getD i []).getD j 0 :=
  FishersExact.shuffleRows_cell_nonneg rand hrand rows cols 0 hrow
    (fun c hc => hcol c (List.dropLast_subset _ hc)) i j hi hj hcorner

/-- Witness for the amended Claim C2: totals `[1, 1]` and `[1, 1]` with
the all-zeros draw oracle; the cell in row 0, column 1 (not the
bottom-right corner) is non-negative. -/
theorem marginal_shuffle_nonneg_except_corner_witness :
    0 ≤ ((FishersExact.shuffleRows (fun _ _ => 0) 0 [1, 1] [1, 1]).getD 0 []).getD 1 0 :=
  marginal_shuffle_nonneg_except_corner (fun _ _ => 0) [1, 1] [1, 1]
    (fun n b hb => ⟨le_refl 0, hb⟩)
    (by intro r hr; simp at hr; omega)
    (by intro c hc; simp at hc; omega)
    (by norm_num) 0 1 (by norm_num) (by norm_num)
    (by rintro ⟨h1, h2⟩; simp at h1)

/-- Claim C2, counterexample: for the consistent non-negative totals
`[2, 2]` (rows) and `[3, 1]` (columns) and the in-range all-zeros draw
sequence, the generated table is `[[0, 2], [3, -1]]`: its bottom-right
cell is `-1`, a negative entry, and no error is raised. -/
theorem marginal_shuffle_negative_cell :
    FishersExact.ValidRand (fun _ _ => 0) ∧
      ([2, 2] : List ℤ).sum = ([3, 1] : List ℤ).sum ∧
      ((FishersExact.shuffleRows (fun _ _ => 0) 0 [2, 2] [3, 1]).getD 1 []).getD 1 0 = -1 := by
  refine ⟨fun n b hb => ⟨le_refl 0, hb⟩, by norm_num, ?_⟩
  norm_num [FishersExact.shuffleRows, FishersExact.fillRow]

end Fpcc2

namespace Fpcc2

set_option maxRecDepth 40000

namespace GroupShuffle

theorem pool_eq_flatten : ∀ grps : List (List ℚ), pool grps = grps.flatten := by
  have aux : ∀ (gs : List (List ℚ)) (init : List ℚ),
      gs.foldl (fun p g => p ++ g) init = init ++ gs.flatten := by
    intro gs
    induction gs with
    | nil => intro init; simp
    | cons g gs ih =>
        intro init
        simp only [List.foldl_cons, List.flatten_cons, ih, List.append_assoc]
  intro grps
  rw [pool, aux, List.nil_append]

theorem reslice_getD_length : ∀ (gs : List (List ℚ)) (p : List ℚ),
    (gs.map List.length).sum ≤ p.length →
    ∀ i, ((reslice p gs).getD i []).length = (gs.getD i []).length := by
  intro gs
  induction gs with
  | nil => intro p h i; simp [reslice]
  | cons g gs ih =>
      intro p h i
      cases i with
      | zero =>
          simp only [reslice, List.getD_cons_zero, List.length_take]
          simp only [List.map_cons, List.sum_cons] at h
          omega
      | succ i' =>
          simp only [reslice, List.getD_cons_succ]
          apply ih
          simp only [List.map_cons, List.sum_cons] at h
          rw [List.length_drop]
          omega

theorem reslice_flatten : ∀ (gs : List (List ℚ)) (p : List ℚ),
    p.length = (gs.map List.length).sum → (reslice p gs).flatten = p := by
  intro gs
  induction gs with
  | nil =>
      intro p h
      simp only [List.map_nil, List.sum_nil] at h
      rw [List.length_eq_zero.mp h]
      rfl
  | cons g gs ih =>
      intro p h
      simp only [reslice, List.flatten_cons]
      rw [ih (p.drop g.length)
        (by rw [List.length_drop]; simp only [List.map_cons, List.sum_cons] at h; omega)]
      exact List.take_append_drop _ p

end GroupShuffle

/-- Claim C8: for every list of groups of rationals and every
permutation applied to the pooled values, the group shuffle returns
groups whose concatenation is a permutation of the input concatenation
(so the multiset of values, equivalently the sorted concatenation, is
conserved) and whose `i`-th group has the same length as the `i`-th
input group. -/
theorem group_shuffle_preserves (permute : List ℚ → List ℚ)
    (hperm : ∀ l : List ℚ, (permute l).Perm l) (grps : List (List ℚ)) :
    ((GroupShuffle.shuffle permute grps).flatten).Perm grps.flatten ∧
      ∀ i, ((GroupShuffle.shuffle permute grps).getD i []).length =
        (grps.getD i []).length := by
  have hlen : (permute (GroupShuffle.pool grps)).length = (grps.map List.length).sum := by
    rw [(hperm _).length_eq, GroupShuffle.pool_eq_flatten]
    exact List.length_flatten _
  constructor
  · rw [GroupShuffle.shuffle, GroupShuffle.reslice_flatten grps _ hlen,
      GroupShuffle.pool_eq_flatten]
    exact hperm _
  · intro i
    rw [GroupShuffle.shuffle]
    exact GroupShuffle.reslice_getD_length grps _ hlen.ge i

/-- Witness for Claim C8: the identity permutation on the groups
`[[1], [2, 3]]`; the flattened output is a permutation of the flattened
input. -/
theorem group_shuffle_preserves_witness :
    ((GroupShuffle.shuffle id [[1], [2, 3]]).flatten).Perm
      ([[1], [2, 3]] : List (List ℚ)).flatten :=
  (group_shuffle_preserves id (fun l => List.Perm.refl l) [[1], [2, 3]]).1

end Fpcc2
